import Mathlib

/-!
Verification of the FastAPI demo server (weather, currency, validation,
numeric processing, in-memory cache, stats counters, auth gate).

Python floats are modelled as rationals; Python strings as Lean strings,
or as lists of characters where their internal structure matters; Python
dicts as association lists with insert-or-update semantics; the random
source as an explicit parameter carrying the sampled value; wall-clock
time as an explicit natural-number parameter.
-/

set_option maxHeartbeats 1600000

/-! ## Python dict model (association list, insertion order, unique keys) -/

def dictGet {κ β : Type} [DecidableEq κ] : List (κ × β) → κ → Option β
  | [], _ => none
  | p :: ps, k => if p.1 = k then some p.2 else dictGet ps k

def dictSet {κ β : Type} [DecidableEq κ] (d : List (κ × β)) (k : κ) (v : β) :
    List (κ × β) :=
  if (dictGet d k).isSome then
    d.map (fun p => if p.1 = k then (k, v) else p)
  else d ++ [(k, v)]

def keysOf {κ β : Type} (d : List (κ × β)) : List κ := d.map Prod.fst

theorem dictGet_map_update {κ β : Type} [DecidableEq κ]
    (d : List (κ × β)) (k : κ) (v : β) :
    dictGet (d.map (fun p => if p.1 = k then (k, v) else p)) k =
      if (dictGet d k).isSome then some v else none := by
  induction d with
  | nil => simp [dictGet]
  | cons p ps ih =>
    by_cases hp : p.1 = k
    · simp [dictGet, hp]
    · simp [dictGet, hp, ih]

theorem dictGet_append_single {κ β : Type} [DecidableEq κ]
    (d : List (κ × β)) (k : κ) (v : β) (h : dictGet d k = none) :
    dictGet (d ++ [(k, v)]) k = some v := by
  induction d with
  | nil => simp [dictGet]
  | cons p ps ih =>
    by_cases hp : p.1 = k
    · simp [dictGet, hp] at h
    · simp [dictGet, hp] at h ⊢
      exact ih h

theorem dictGet_dictSet_self {κ β : Type} [DecidableEq κ]
    (d : List (κ × β)) (k : κ) (v : β) :
    dictGet (dictSet d k v) k = some v := by
  unfold dictSet
  by_cases h : (dictGet d k).isSome
  · simp only [h, if_true]
    rw [dictGet_map_update, if_pos h]
  · simp only [h, if_false]
    exact dictGet_append_single d k v (by
      cases hh : dictGet d k with
      | none => rfl
      | some x => rw [hh] at h; simp at h)

theorem dictGet_map_update_ne {κ β : Type} [DecidableEq κ]
    (d : List (κ × β)) (k k' : κ) (v : β) (h : k' ≠ k) :
    dictGet (d.map (fun p => if p.1 = k then (k, v) else p)) k' = dictGet d k' := by
  induction d with
  | nil => simp [dictGet]
  | cons p ps ih =>
    by_cases hp : p.1 = k
    · have h1 : ¬ (k = k') := fun hh => h hh.symm
      have h2 : ¬ (p.1 = k') := by rw [hp]; exact h1
      simp [dictGet, hp, h1, h2, ih]
    · by_cases hp' : p.1 = k'
      · simp [dictGet, hp, hp', h]
      · simp [dictGet, hp, hp', ih]

theorem dictGet_append_single_ne {κ β : Type} [DecidableEq κ]
    (d : List (κ × β)) (k k' : κ) (v : β) (h : k' ≠ k) :
    dictGet (d ++ [(k, v)]) k' = dictGet d k' := by
  induction d with
  | nil =>
    have h1 : ¬ (k = k') := fun hh => h hh.symm
    simp [dictGet, h1]
  | cons p ps ih =>
    by_cases hp' : p.1 = k'
    · simp [dictGet, hp']
    · simp [dictGet, hp', ih]

theorem dictGet_dictSet_ne {κ β : Type} [DecidableEq κ]
    (d : List (κ × β)) (k k' : κ) (v : β) (h : k' ≠ k) :
    dictGet (dictSet d k v) k' = dictGet d k' := by
  unfold dictSet
  by_cases hs : (dictGet d k).isSome
  · rw [if_pos hs]
    exact dictGet_map_update_ne d k k' v h
  · rw [if_neg hs]
    exact dictGet_append_single_ne d k k' v h

theorem length_dictSet {κ β : Type} [DecidableEq κ]
    (d : List (κ × β)) (k : κ) (v : β) :
    (dictSet d k v).length =
      if (dictGet d k).isSome then d.length else d.length + 1 := by
  unfold dictSet
  by_cases h : (dictGet d k).isSome <;> simp [h]

theorem dictGet_mem {κ β : Type} [DecidableEq κ]
    (d : List (κ × β)) (k : κ) (v : β) (h : dictGet d k = some v) :
    (k, v) ∈ d := by
  induction d with
  | nil => simp [dictGet] at h
  | cons p ps ih =>
    by_cases hp : p.1 = k
    · simp only [dictGet, hp, if_true, Option.some.injEq] at h
      have hpe : p = (k, v) := by
        obtain ⟨a, b⟩ := p
        simp only [Prod.mk.injEq]
        exact ⟨hp, h⟩
      rw [hpe]
      exact List.mem_cons_self _ _
    · simp only [dictGet, hp, if_false] at h
      exact List.mem_cons_of_mem _ (ih h)

theorem mem_dictSet {κ β : Type} [DecidableEq κ]
    (d : List (κ × β)) (k : κ) (v : β) (p : κ × β) (h : p ∈ dictSet d k v) :
    p ∈ d ∨ p.2 = v := by
  unfold dictSet at h
  by_cases hs : (dictGet d k).isSome
  · rw [if_pos hs] at h
    rcases List.mem_map.mp h with ⟨q, hq, hqe⟩
    by_cases hqk : q.1 = k
    · rw [if_pos hqk] at hqe
      right
      rw [← hqe]
    · rw [if_neg hqk] at hqe
      left
      rw [← hqe]
      exact hq
  · rw [if_neg hs] at h
    rcases List.mem_append.mp h with h | h
    · exact Or.inl h
    · right
      have hpe : p = (k, v) := by simpa using h
      rw [hpe]

theorem mem_keysOf_iff_isSome {κ β : Type} [DecidableEq κ]
    (d : List (κ × β)) (k : κ) :
    k ∈ keysOf d ↔ (dictGet d k).isSome := by
  induction d with
  | nil => simp [keysOf, dictGet]
  | cons p ps ih =>
    by_cases hp : p.1 = k
    · simp [keysOf, dictGet, hp]
    · simp only [keysOf, List.map_cons, List.mem_cons, dictGet, hp, if_false]
      constructor
      · intro h
        rcases h with h | h
        · exact absurd h.symm hp
        · exact (ih.mp h)
      · intro h
        exact Or.inr (ih.mpr h)

theorem keysOf_dictSet {κ β : Type} [DecidableEq κ]
    (d : List (κ × β)) (k : κ) (v : β) :
    keysOf (dictSet d k v) =
      if (dictGet d k).isSome then keysOf d else keysOf d ++ [k] := by
  unfold dictSet
  by_cases h : (dictGet d k).isSome
  · simp only [h, if_true, keysOf, List.map_map]
    congr 1
    funext p
    by_cases hp : p.1 = k <;> simp [hp]
  · simp [h, keysOf]

/-! ## Rounding model: Python round(x, d) as round-half-to-even on rationals -/

def roundHalfEven (q : ℚ) : ℤ :=
  if q - ⌊q⌋ < 1/2 then ⌊q⌋
  else if 1/2 < q - ⌊q⌋ then ⌊q⌋ + 1
  else if ⌊q⌋ % 2 = 0 then ⌊q⌋ else ⌊q⌋ + 1

def roundTo (d : ℕ) (q : ℚ) : ℚ := (roundHalfEven (q * 10 ^ d) : ℚ) / 10 ^ d

theorem roundHalfEven_cases (q : ℚ) :
    roundHalfEven q = ⌊q⌋ ∨ roundHalfEven q = ⌊q⌋ + 1 := by
  unfold roundHalfEven
  split_ifs <;> simp

theorem le_roundHalfEven (n : ℤ) (q : ℚ) (h : (n : ℚ) ≤ q) :
    n ≤ roundHalfEven q := by
  have h1 : n ≤ ⌊q⌋ := Int.le_floor.mpr h
  rcases roundHalfEven_cases q with he | he <;> rw [he] <;> omega

theorem roundHalfEven_le (n : ℤ) (q : ℚ) (h : q ≤ (n : ℚ)) :
    roundHalfEven q ≤ n := by
  have hfl : ⌊q⌋ ≤ n := by
    have := Int.floor_le_floor h
    rwa [Int.floor_intCast] at this
  unfold roundHalfEven
  split_ifs with h1 h2 h3
  · exact hfl
  · have hlt : (⌊q⌋ : ℚ) < q := by linarith
    have : ⌊q⌋ < n := by exact_mod_cast lt_of_lt_of_le hlt h
    omega
  · exact hfl
  · have hge : 1/2 ≤ q - ⌊q⌋ := le_of_not_lt h1
    have hlt : (⌊q⌋ : ℚ) < q := by linarith
    have : ⌊q⌋ < n := by exact_mod_cast lt_of_lt_of_le hlt h
    omega

theorem le_roundTo (d : ℕ) (n : ℤ) (q : ℚ) (h : (n : ℚ) ≤ q * 10 ^ d) :
    (n : ℚ) / 10 ^ d ≤ roundTo d q := by
  have hp : (0 : ℚ) < 10 ^ d := by positivity
  have h1 : n ≤ roundHalfEven (q * 10 ^ d) := le_roundHalfEven n _ h
  have h2 : (n : ℚ) ≤ (roundHalfEven (q * 10 ^ d) : ℚ) := by exact_mod_cast h1
  unfold roundTo
  exact (div_le_div_iff_of_pos_right hp).mpr h2

theorem roundTo_le (d : ℕ) (n : ℤ) (q : ℚ) (h : q * 10 ^ d ≤ (n : ℚ)) :
    roundTo d q ≤ (n : ℚ) / 10 ^ d := by
  have hp : (0 : ℚ) < 10 ^ d := by positivity
  have h1 : roundHalfEven (q * 10 ^ d) ≤ n := roundHalfEven_le n _ h
  have h2 : (roundHalfEven (q * 10 ^ d) : ℚ) ≤ (n : ℚ) := by exact_mod_cast h1
  unfold roundTo
  exact (div_le_div_iff_of_pos_right hp).mpr h2

/-! ## services.py: mock data tables -/

def pyUpper (s : String) : String := ⟨s.data.map Char.toUpper⟩

def pyLower (s : String) : String := ⟨s.data.map Char.toLower⟩

structure WeatherInfo where
  temperature : ℚ
  condition : String
  humidity : ℤ
deriving DecidableEq

def WEATHER_DATA : List (String × WeatherInfo) :=
  [ ("moscow", ⟨15.5, "Cloudy", 65⟩),
    ("london", ⟨12.0, "Rainy", 80⟩),
    ("tokyo", ⟨22.0, "Sunny", 55⟩),
    ("newyork", ⟨18.0, "Partly Cloudy", 70⟩) ]

def CURRENCY_RATES : List ((String × String) × ℚ) :=
  [ (("USD", "EUR"), 0.85),
    (("USD", "GBP"), 0.79),
    (("EUR", "USD"), 1.18),
    (("EUR", "GBP"), 0.93),
    (("GBP", "USD"), 1.27),
    (("GBP", "EUR"), 1.08) ]

/-! ## services.py: weather, currency, numeric processing

The random source is passed in explicitly: `tRnd` is the value sampled by
random.uniform for the temperature, `cond` the condition picked by
random.choice, `hRnd` the integer sampled by random.randint, `rnd` the
value sampled by random.uniform for a synthesized currency rate. -/

def get_weather_async (city : String) (tRnd : ℚ) (cond : String) (hRnd : ℤ) :
    WeatherInfo :=
  match dictGet WEATHER_DATA (pyLower city) with
  | none => ⟨roundTo 1 tRnd, cond, hRnd⟩
  | some w => w

def get_currency_rate (base target : String) (rnd : ℚ) : ℚ :=
  if pyUpper base = pyUpper target then 1.0
  else
    match dictGet CURRENCY_RATES (pyUpper base, pyUpper target) with
    | some r => r
    | none => roundTo 4 rnd

def pySum (l : List ℚ) : ℚ := l.foldl (· + ·) 0

def process_numbers (numbers : List ℚ) (operation : String) (multiplier : ℚ) :
    Except String ℚ :=
  if operation = "sum" then .ok (roundTo 2 (pySum numbers * multiplier))
  else if operation = "average" then
    match numbers with
    | [] => .error "division by zero"
    | _ :: _ => .ok (roundTo 2 (pySum numbers / numbers.length * multiplier))
  else if operation = "max" then
    match numbers with
    | [] => .error "max arg is an empty sequence"
    | x :: xs => .ok (roundTo 2 (xs.foldl max x * multiplier))
  else if operation = "min" then
    match numbers with
    | [] => .error "min arg is an empty sequence"
    | x :: xs => .ok (roundTo 2 (xs.foldl min x * multiplier))
  else .error ("Unknown operation: " ++ operation)

/-! ## services.py: in-memory state (stats counters and cache) -/

def update_request_stats (stats : List (String × ℤ)) (endpoint : String) :
    List (String × ℤ) :=
  dictSet stats endpoint ((dictGet stats endpoint).getD 0 + 1)

def counterOf (stats : List (String × ℤ)) (endpoint : String) : ℤ :=
  (dictGet stats endpoint).getD 0

structure CacheEntry (α : Type) where
  value : α
  created_at : ℕ
  exists_flag : Bool
deriving DecidableEq

def get_cache_value {α : Type} (cache : List (String × CacheEntry α))
    (key : String) : Option (CacheEntry α) :=
  dictGet cache key

def set_cache_value {α : Type} (cache : List (String × CacheEntry α))
    (key : String) (value : α) (now : ℕ) :
    List (String × CacheEntry α) × CacheEntry α :=
  let entry : CacheEntry α := ⟨value, now, true⟩
  (dictSet cache key entry, entry)

/-! ## models.py: tag cleanup and validation pipeline -/

def strip (l : List Char) : List Char :=
  ((l.dropWhile Char.isWhitespace).reverse.dropWhile Char.isWhitespace).reverse

def cleanTags (tags : List (List Char)) : List (List Char) :=
  (tags.map strip).filter (fun t => !t.isEmpty)

def validate_tags (tags : List (List Char)) : Except String (List (List Char)) :=
  if 10 < tags.length then .error "List should have at most 10 items"
  else if 10 < (cleanTags tags).length then
    .error "No more than 10 non-empty tags allowed."
  else .ok (cleanTags tags)

structure ValidationRequest where
  name : String
  age : ℤ
  email : List Char
  tags : List (List Char)
deriving DecidableEq

/-! ## api.py: validation endpoint derived fields -/

def splitOnChar (c : Char) : List Char → List (List Char)
  | [] => [[]]
  | x :: xs =>
    if x = c then [] :: splitOnChar c xs
    else
      match splitOnChar c xs with
      | [] => [[x]]
      | y :: ys => (x :: y) :: ys

def afterFirst (c : Char) (l : List Char) : List Char :=
  (l.dropWhile (fun a => a != c)).drop 1

structure ProcessedData where
  name_length : ℕ
  age_group : String
  email_domain : Option (List Char)
  tag_count : ℕ
  strict_mode : Bool
deriving DecidableEq

def validate_data (r : ValidationRequest) (strict : Bool) : ProcessedData :=
  { name_length := r.name.length
    age_group := if 18 ≤ r.age then "adult" else "minor"
    email_domain :=
      if '@' ∈ r.email then some ((splitOnChar '@' r.email).getD 1 []) else none
    tag_count := r.tags.length
    strict_mode := strict }

/-! ## config.py and api.py: settings, system state and endpoint handlers -/

structure Settings where
  api_key : String := "demo-key-12345"
  api_key_header : String := "X-API-Key"
  app_name : String := "FastAPI Demo Server"
  app_version : String := "1.0.0"
  debug : Bool := false

def settings : Settings := {}

structure SystemState (α : Type) where
  stats : List (String × ℤ)
  cache : List (String × CacheEntry α)

def initialState (α : Type) : SystemState α := ⟨[], []⟩

inductive ProtectedResult where
  | success (resource_id : String)
  | unauthorized
  | missingHeader
deriving DecidableEq

def get_protected_resource {α : Type} (apiKey : String) (st : SystemState α)
    (header : Option String) (fresh : String) :
    SystemState α × ProtectedResult :=
  match header with
  | none => (st, .missingHeader)
  | some v =>
    let st1 : SystemState α := ⟨update_request_stats st.stats "protected", st.cache⟩
    if v ≠ apiKey then (st1, .unauthorized) else (st1, .success fresh)

structure CacheResponse (α : Type) where
  key : String
  value : Option α
  created_at : ℕ
  exists_flag : Bool
deriving DecidableEq

def get_cache {α : Type} (st : SystemState α) (key : String) (now : ℕ) :
    SystemState α × CacheResponse α :=
  let st1 : SystemState α := ⟨update_request_stats st.stats "get_cache", st.cache⟩
  match get_cache_value st.cache key with
  | none => (st1, ⟨key, none, now, false⟩)
  | some e => (st1, ⟨key, some e.value, e.created_at, true⟩)

def set_cache {α : Type} (st : SystemState α) (key : String) (v : α) (now : ℕ) :
    SystemState α × CacheResponse α :=
  let r := set_cache_value st.cache key v now
  (⟨update_request_stats st.stats "set_cache", r.1⟩,
   ⟨key, some r.2.value, r.2.created_at, true⟩)

structure StatsResponse where
  total_requests : ℤ
  endpoint_counts : List (String × ℤ)
  average_response_time_ms : ℚ
  cache_size : ℕ

def get_statistics {α : Type} (st : SystemState α) : StatsResponse :=
  ⟨(st.stats.map Prod.snd).sum, st.stats, 0, st.cache.length⟩

/-! ## Operation traces over the shared in-memory state

Every handler updates the stats counter for its endpoint name; only the
cache-set handler mutates the cache. `Op.stat` stands for any of the
remaining endpoints (weather, currency, joke, quote, stats, uuid, validate,
process, protected, external), none of which touches the cache. -/

inductive Op (α : Type) where
  | setC (key : String) (value : α) (now : ℕ)
  | getC (key : String) (now : ℕ)
  | stat (endpoint : String)

def endpointName {α : Type} : Op α → String
  | .setC _ _ _ => "set_cache"
  | .getC _ _ => "get_cache"
  | .stat e => e

def applyOp {α : Type} (st : SystemState α) : Op α → SystemState α
  | .setC k v t => (set_cache st k v t).1
  | .getC k t => (get_cache st k t).1
  | .stat e => ⟨update_request_stats st.stats e, st.cache⟩

def run {α : Type} (st : SystemState α) (ops : List (Op α)) : SystemState α :=
  ops.foldl applyOp st

def setKeys {α : Type} : List (Op α) → List String
  | [] => []
  | .setC k _ _ :: rest => k :: setKeys rest
  | .getC _ _ :: rest => setKeys rest
  | .stat _ :: rest => setKeys rest

/-! ## Helper lemmas about splitOnChar and afterFirst -/

theorem splitOnChar_not_mem (c : Char) (l : List Char) (h : c ∉ l) :
    splitOnChar c l = [l] := by
  induction l with
  | nil => rfl
  | cons x xs ih =>
    have hx : ¬ (x = c) := fun he => h (he ▸ List.mem_cons_self x xs)
    have hxs : c ∉ xs := fun hm => h (List.mem_cons_of_mem x hm)
    unfold splitOnChar
    rw [if_neg hx, ih hxs]

theorem splitOnChar_single (c : Char) (pre post : List Char)
    (hpre : c ∉ pre) (hpost : c ∉ post) :
    splitOnChar c (pre ++ c :: post) = [pre, post] := by
  induction pre with
  | nil =>
    rw [List.nil_append]
    simp [splitOnChar, splitOnChar_not_mem c post hpost]
  | cons x xs ih =>
    have hx : ¬ (x = c) := fun he => hpre (he ▸ List.mem_cons_self x xs)
    have hxs : c ∉ xs := fun hm => hpre (List.mem_cons_of_mem x hm)
    rw [List.cons_append]
    simp only [splitOnChar, hx, if_false]
    rw [ih hxs]

theorem afterFirst_append (c : Char) (pre post : List Char) (hpre : c ∉ pre) :
    afterFirst c (pre ++ c :: post) = post := by
  induction pre with
  | nil =>
    unfold afterFirst
    simp [List.dropWhile]
  | cons x xs ih =>
    have hx : x ≠ c := fun he => hpre (he ▸ List.mem_cons_self x xs)
    have hxs : c ∉ xs := fun hm => hpre (List.mem_cons_of_mem x hm)
    unfold afterFirst at ih ⊢
    rw [List.cons_append, List.dropWhile_cons]
    simp only [bne_iff_ne, ne_eq, hx, not_false_eq_true, if_true]
    exact ih hxs

def johnDoeRequest : ValidationRequest :=
  ⟨"John Doe", 30, "john@example.com".toList,
   ["developer".toList, "python".toList]⟩

/-- C2: for every valid ValidationRequest the validate operation derives
name_length as the character count of name, age_group as "adult" iff age is
at least 18 and "minor" otherwise, email_domain as the substring after the
first "@" of the email (null when the email has no "@"), tag_count as the
length of the (already cleaned) tag list, and strict_mode as the echoed
flag; on name="John Doe", age=30, email="john@example.com",
tags=["developer","python"] it yields name_length=8, age_group="adult",
tag_count=2. -/
theorem validate_data_derived_fields (r : ValidationRequest) (strict : Bool) :
    (validate_data r strict).name_length = r.name.length ∧
    (18 ≤ r.age → (validate_data r strict).age_group = "adult") ∧
    (r.age < 18 → (validate_data r strict).age_group = "minor") ∧
    (∀ pre post, r.email = pre ++ '@' :: post → '@' ∉ pre → '@' ∉ post →
      (validate_data r strict).email_domain = some post ∧
      afterFirst '@' r.email = post) ∧
    ('@' ∉ r.email → (validate_data r strict).email_domain = none) ∧
    (validate_data r strict).tag_count = r.tags.length ∧
    (validate_data r strict).strict_mode = strict ∧
    validate_data johnDoeRequest false =
      ⟨8, "adult", some ("example.com".toList), 2, false⟩ := by
  refine ⟨rfl, ?_, ?_, ?_, ?_, rfl, rfl, by decide⟩
  · intro h
    simp [validate_data, h]
  · intro h
    have h' : ¬ (18 ≤ r.age) := not_le.mpr h
    simp [validate_data, h']
  · intro pre post he hpre hpost
    have hmem : '@' ∈ r.email := by
      rw [he]
      exact List.mem_append_right pre (List.mem_cons_self _ _)
    constructor
    · simp only [validate_data, hmem, if_true]
      rw [he, splitOnChar_single '@' pre post hpre hpost]
      rfl
    · rw [he]
      exact afterFirst_append '@' pre post hpre
  · intro h
    simp [validate_data, h]

/-- C2 witness: the derived email domain at the concrete example request. -/
theorem validate_data_derived_fields_witness :
    (validate_data johnDoeRequest false).email_domain =
      some ("example.com".toList) :=
  ((validate_data_derived_fields johnDoeRequest false).2.2.2.1
    "john".toList "example.com".toList (by decide) (by decide) (by decide)).1

/-! ## C3: tag cleanup and the max-length constraint -/

def isOkE {ε α : Type} : Except ε α → Bool
  | .ok _ => true
  | .error _ => false

def cexTags : List (List Char) :=
  [['a'], ['b'], ['c'], ['d'], ['e'], ['f'], ['g'], ['h'], ['i'], ['j'], [' ']]

/-- C3 counterexample: a raw tag list of 11 entries of which only 10 remain
non-empty after trimming is rejected by the validation pipeline (the raw
max-length constraint fires before the cleanup validator), contradicting the
claim that such an input is accepted. -/
theorem validate_tags_counterexample :
    cexTags.length = 11 ∧ (cleanTags cexTags).length = 10 ∧
    isOkE (validate_tags cexTags) = false := by decide

/-- C3 (amended): tags are trimmed of surrounding whitespace with empty
strings dropped, and the request is rejected exactly when the RAW tag list
exceeds 10 entries (so the cleanup-stage bound never fires); every accepted
cleaned tag list has at most 10 entries, all non-empty. -/
theorem validate_tags_amended (tags : List (List Char)) :
    (tags.length ≤ 10 →
      validate_tags tags = .ok (cleanTags tags) ∧ (cleanTags tags).length ≤ 10) ∧
    (10 < tags.length → isOkE (validate_tags tags) = false) ∧
    (∀ cleaned, validate_tags tags = .ok cleaned →
      cleaned = cleanTags tags ∧ cleaned.length ≤ 10 ∧
      ∀ t ∈ cleaned, t ≠ []) := by
  have hlen : (cleanTags tags).length ≤ tags.length := by
    unfold cleanTags
    calc ((tags.map strip).filter (fun t => !t.isEmpty)).length
        ≤ (tags.map strip).length := List.length_filter_le _ _
      _ = tags.length := List.length_map _ _
  refine ⟨?_, ?_, ?_⟩
  · intro h10
    have hno : ¬ (10 < tags.length) := not_lt.mpr h10
    have hc : ¬ (10 < (cleanTags tags).length) := not_lt.mpr (le_trans hlen h10)
    unfold validate_tags
    rw [if_neg hno, if_neg hc]
    exact ⟨rfl, le_trans hlen h10⟩
  · intro h10
    unfold validate_tags
    rw [if_pos h10]
    rfl
  · intro cleaned hok
    by_cases h10 : 10 < tags.length
    · unfold validate_tags at hok
      rw [if_pos h10] at hok
      exact absurd hok (by simp)
    · by_cases hc : 10 < (cleanTags tags).length
      · exact absurd hc (not_lt.mpr (le_trans hlen (not_lt.mp h10)))
      · unfold validate_tags at hok
        rw [if_neg h10, if_neg hc] at hok
        injection hok with heq
        refine ⟨heq.symm, ?_, ?_⟩
        · rw [← heq]
          exact not_lt.mp hc
        · intro t ht hteq
          rw [← heq] at ht
          unfold cleanTags at ht
          rcases List.mem_filter.mp ht with ⟨_, hne⟩
          rw [hteq] at hne
          simp at hne

/-- C3 witness: a singleton raw tag list is accepted and returned cleaned. -/
theorem validate_tags_amended_witness :
    validate_tags [['a']] = .ok [['a']] :=
  ((validate_tags_amended [['a']]).1 (by decide)).1

/-- C4: cache set followed by get returns the exact value with a populated
creation time and exists=true; set unconditionally overwrites, so a second
set of the same key makes get return the newer value and timestamp. -/
theorem cache_set_then_get (α : Type) (st : SystemState α)
    (cache : List (String × CacheEntry α)) (k : String) (v v' : α)
    (t t' now : ℕ) :
    dictGet (set_cache_value cache k v t).1 k = some ⟨v, t, true⟩ ∧
    (set_cache_value cache k v t).2 = ⟨v, t, true⟩ ∧
    (get_cache ((set_cache st k v t).1) k now).2 = ⟨k, some v, t, true⟩ ∧
    (get_cache ((set_cache ((set_cache st k v t).1) k v' t').1) k now).2 =
      ⟨k, some v', t', true⟩ := by
  refine ⟨dictGet_dictSet_self cache k _, rfl, ?_, ?_⟩
  · unfold get_cache set_cache get_cache_value set_cache_value
    simp [dictGet_dictSet_self]
  · unfold get_cache set_cache get_cache_value set_cache_value
    simp [dictGet_dictSet_self]

/-- C10: looking up an absent cache key succeeds with exists=false and a
null value, but the created_at field is populated with the current time of
the lookup rather than being absent. -/
theorem cache_get_missing_fabricates_timestamp (α : Type) (st : SystemState α)
    (k : String) (now : ℕ) (h : dictGet st.cache k = none) :
    (get_cache st k now).2 = ⟨k, none, now, false⟩ ∧
    (get_cache st k now).2.exists_flag = false ∧
    (get_cache st k now).2.value = none ∧
    (get_cache st k now).2.created_at = now := by
  unfold get_cache get_cache_value
  rw [h]
  exact ⟨rfl, rfl, rfl, rfl⟩

/-- C10 witness: the missing-key response at a concrete state and key. -/
theorem cache_get_missing_witness :
    (get_cache (initialState ℕ) "missing" 5).2 = ⟨"missing", none, 5, false⟩ :=
  (cache_get_missing_fabricates_timestamp ℕ (initialState ℕ) "missing" 5 rfl).1

/-- C5: the protected endpoint succeeds (with the freshly generated resource
identifier) exactly when the supplied X-API-Key header equals the configured
secret; any other supplied value yields the 401 unauthorized outcome, an
absent header yields the framework-level 422 outcome, and the cache is never
modified. -/
theorem protected_resource_auth (α : Type) (apiKey : String)
    (st : SystemState α) (header : Option String) (fresh : String) :
    ((∃ rid, (get_protected_resource apiKey st header fresh).2 =
        .success rid) ↔ header = some apiKey) ∧
    (header = some apiKey →
      (get_protected_resource apiKey st header fresh).2 = .success fresh) ∧
    (∀ v, header = some v → v ≠ apiKey →
      (get_protected_resource apiKey st header fresh).2 = .unauthorized) ∧
    (header = none →
      (get_protected_resource apiKey st header fresh).2 = .missingHeader) ∧
    (get_protected_resource apiKey st header fresh).1.cache = st.cache := by
  cases header with
  | none => simp [get_protected_resource]
  | some v =>
    by_cases hv : v = apiKey
    · subst hv
      simp [get_protected_resource]
    · simp [get_protected_resource, hv]

/-- C5 witness: the matching key grants access at a concrete state. -/
theorem protected_resource_auth_witness :
    (get_protected_resource settings.api_key (initialState ℕ)
      (some settings.api_key) "rid-1").2 = .success "rid-1" :=
  (protected_resource_auth ℕ settings.api_key (initialState ℕ)
    (some settings.api_key) "rid-1").2.1 rfl

/-! ## Helper lemmas for numeric processing -/

instance {ε α : Type} [DecidableEq ε] [DecidableEq α] :
    DecidableEq (Except ε α) := fun a b =>
  match a, b with
  | .ok x, .ok y =>
    if h : x = y then .isTrue (by rw [h])
    else .isFalse (fun hh => h (Except.ok.inj hh))
  | .error x, .error y =>
    if h : x = y then .isTrue (by rw [h])
    else .isFalse (fun hh => h (Except.error.inj hh))
  | .ok _, .error _ => .isFalse (fun hh => Except.noConfusion hh)
  | .error _, .ok _ => .isFalse (fun hh => Except.noConfusion hh)

theorem foldl_add_eq (l : List ℚ) (a : ℚ) : l.foldl (· + ·) a = a + l.sum := by
  induction l generalizing a with
  | nil => simp
  | cons x xs ih => simp [ih, add_assoc]

theorem pySum_eq_sum (l : List ℚ) : pySum l = l.sum := by
  unfold pySum
  rw [foldl_add_eq, zero_add]

theorem foldl_max_mem (xs : List ℚ) (x : ℚ) : xs.foldl max x ∈ x :: xs := by
  induction xs generalizing x with
  | nil => simp [List.foldl]
  | cons y ys ih =>
    simp only [List.foldl_cons]
    rcases List.mem_cons.mp (ih (max x y)) with h | h
    · rw [h]
      rcases max_choice x y with hm | hm <;> rw [hm]
      · exact List.mem_cons_self _ _
      · exact List.mem_cons_of_mem _ (List.mem_cons_self _ _)
    · exact List.mem_cons_of_mem _ (List.mem_cons_of_mem _ h)

theorem le_foldl_max (xs : List ℚ) : ∀ x z : ℚ, z ∈ x :: xs →
    z ≤ xs.foldl max x := by
  induction xs with
  | nil =>
    intro x z h
    simp only [List.mem_singleton] at h
    rw [h]
    exact le_refl _
  | cons y ys ih =>
    intro x z h
    simp only [List.foldl_cons]
    have hstep : max x y ≤ ys.foldl max (max x y) :=
      ih (max x y) (max x y) (List.mem_cons_self _ _)
    rcases List.mem_cons.mp h with hz | hz
    · calc z = x := hz
        _ ≤ max x y := le_max_left x y
        _ ≤ _ := hstep
    · rcases List.mem_cons.mp hz with hz' | hz'
      · calc z = y := hz'
          _ ≤ max x y := le_max_right x y
          _ ≤ _ := hstep
      · exact ih (max x y) z (List.mem_cons_of_mem _ hz')

theorem foldl_min_mem (xs : List ℚ) (x : ℚ) : xs.foldl min x ∈ x :: xs := by
  induction xs generalizing x with
  | nil => simp [List.foldl]
  | cons y ys ih =>
    simp only [List.foldl_cons]
    rcases List.mem_cons.mp (ih (min x y)) with h | h
    · rw [h]
      rcases min_choice x y with hm | hm <;> rw [hm]
      · exact List.mem_cons_self _ _
      · exact List.mem_cons_of_mem _ (List.mem_cons_self _ _)
    · exact List.mem_cons_of_mem _ (List.mem_cons_of_mem _ h)

theorem foldl_min_le (xs : List ℚ) : ∀ x z : ℚ, z ∈ x :: xs →
    xs.foldl min x ≤ z := by
  induction xs with
  | nil =>
    intro x z h
    simp only [List.mem_singleton] at h
    rw [h]
    exact le_refl _
  | cons y ys ih =>
    intro x z h
    simp only [List.foldl_cons]
    have hstep : ys.foldl min (min x y) ≤ min x y :=
      ih (min x y) (min x y) (List.mem_cons_self _ _)
    rcases List.mem_cons.mp h with hz | hz
    · calc ys.foldl min (min x y) ≤ min x y := hstep
        _ ≤ x := min_le_left x y
        _ = z := hz.symm
    · rcases List.mem_cons.mp hz with hz' | hz'
      · calc ys.foldl min (min x y) ≤ min x y := hstep
          _ ≤ y := min_le_right x y
          _ = z := hz'.symm
      · exact ih (min x y) z (List.mem_cons_of_mem _ hz')

/-- C1: for every non-empty list of numbers and positive multiplier, the
processing operation rounds op(numbers) * multiplier to 2 decimal places,
where sum is the arithmetic total, average is total/count, and max/min are
extremal elements; in particular process([1,2,3,4,5],"sum",2.0)=30.0 and
process([10,20,30],"average") with default multiplier 1.0 = 20.0. -/
theorem process_numbers_spec (numbers : List ℚ) (multiplier : ℚ)
    (hne : numbers ≠ []) (hpos : 0 < multiplier) :
    process_numbers numbers "sum" multiplier =
      .ok (roundTo 2 (numbers.sum * multiplier)) ∧
    process_numbers numbers "average" multiplier =
      .ok (roundTo 2 (numbers.sum / numbers.length * multiplier)) ∧
    (∃ v, v ∈ numbers ∧ (∀ x ∈ numbers, x ≤ v) ∧
      process_numbers numbers "max" multiplier =
        .ok (roundTo 2 (v * multiplier))) ∧
    (∃ v, v ∈ numbers ∧ (∀ x ∈ numbers, v ≤ x) ∧
      process_numbers numbers "min" multiplier =
        .ok (roundTo 2 (v * multiplier))) ∧
    process_numbers [1, 2, 3, 4, 5] "sum" 2 = .ok 30 ∧
    process_numbers [10, 20, 30] "average" 1 = .ok 20 := by
  have hex1 : process_numbers [1, 2, 3, 4, 5] "sum" 2 = .ok 30 := by
    unfold process_numbers
    rw [if_pos rfl]
    have h30 : roundTo 2 (pySum [1, 2, 3, 4, 5] * 2) = 30 := by
      norm_num [pySum, List.foldl, roundTo, roundHalfEven]
    rw [h30]
  have hex2 : process_numbers [10, 20, 30] "average" 1 = .ok 20 := by
    unfold process_numbers
    rw [if_neg (by decide), if_pos rfl]
    show Except.ok (roundTo 2 (pySum [10, 20, 30] /
      (([10, 20, 30] : List ℚ).length : ℚ) * 1)) = Except.ok 20
    have h20 : roundTo 2 (pySum [10, 20, 30] /
        (([10, 20, 30] : List ℚ).length : ℚ) * 1) = 20 := by
      norm_num [pySum, List.foldl, roundTo, roundHalfEven]
    rw [h20]
  obtain ⟨x, xs, rfl⟩ := List.exists_cons_of_ne_nil hne
  refine ⟨?_, ?_, ?_, ?_, hex1, hex2⟩
  · unfold process_numbers
    rw [if_pos rfl, pySum_eq_sum]
  · unfold process_numbers
    rw [if_neg (by decide), if_pos rfl]
    show Except.ok (roundTo 2 (pySum (x :: xs) /
      ((x :: xs).length : ℚ) * multiplier)) = _
    rw [pySum_eq_sum]
  · refine ⟨xs.foldl max x, foldl_max_mem xs x,
      fun z hz => le_foldl_max xs x z hz, ?_⟩
    unfold process_numbers
    rw [if_neg (by decide), if_neg (by decide), if_pos rfl]
  · refine ⟨xs.foldl min x, foldl_min_mem xs x,
      fun z hz => foldl_min_le xs x z hz, ?_⟩
    unfold process_numbers
    rw [if_neg (by decide), if_neg (by decide), if_neg (by decide),
      if_pos rfl]

/-- C1 witness: the concrete sum example at multiplier 2. -/
theorem process_numbers_spec_witness :
    process_numbers [1, 2, 3, 4, 5] "sum" 2 = .ok 30 :=
  (process_numbers_spec [1, 2, 3, 4, 5] 2 (by decide) (by norm_num)).2.2.2.2.1

/-! ## C6: currency rates -/

theorem get_currency_rate_tabled (b t : String) (r rnd : ℚ)
    (hne : pyUpper b ≠ pyUpper t)
    (hl : dictGet CURRENCY_RATES (pyUpper b, pyUpper t) = some r) :
    get_currency_rate b t rnd = r := by
  unfold get_currency_rate
  rw [if_neg hne, hl]

/-- C6: currency lookup always succeeds; identical codes after case
normalization yield rate 1.0; each of the 6 tabled ordered pairs among
USD/EUR/GBP yields its tabled rate (USD to EUR is 0.85 exactly); any other
pair yields the synthesized rate rounded to 4 decimals, which lies in
[0.5, 2.0] for every outcome of the random source. -/
theorem currency_rate_spec (base target : String) (rnd : ℚ)
    (h1 : 1/2 ≤ rnd) (h2 : rnd ≤ 2) :
    (pyUpper base = pyUpper target → get_currency_rate base target rnd = 1) ∧
    get_currency_rate "USD" "EUR" rnd = 0.85 ∧
    get_currency_rate "USD" "GBP" rnd = 0.79 ∧
    get_currency_rate "EUR" "USD" rnd = 1.18 ∧
    get_currency_rate "EUR" "GBP" rnd = 0.93 ∧
    get_currency_rate "GBP" "USD" rnd = 1.27 ∧
    get_currency_rate "GBP" "EUR" rnd = 1.08 ∧
    (pyUpper base ≠ pyUpper target →
      dictGet CURRENCY_RATES (pyUpper base, pyUpper target) = none →
      get_currency_rate base target rnd = roundTo 4 rnd ∧
      1/2 ≤ get_currency_rate base target rnd ∧
      get_currency_rate base target rnd ≤ 2) := by
  refine ⟨?_,
    get_currency_rate_tabled _ _ _ rnd (by decide) rfl,
    get_currency_rate_tabled _ _ _ rnd (by decide) rfl,
    get_currency_rate_tabled _ _ _ rnd (by decide) rfl,
    get_currency_rate_tabled _ _ _ rnd (by decide) rfl,
    get_currency_rate_tabled _ _ _ rnd (by decide) rfl,
    get_currency_rate_tabled _ _ _ rnd (by decide) rfl, ?_⟩
  · intro h
    unfold get_currency_rate
    rw [if_pos h]
    norm_num
  · intro hne hnone
    have he : get_currency_rate base target rnd = roundTo 4 rnd := by
      unfold get_currency_rate
      rw [if_neg hne, hnone]
    refine ⟨he, ?_, ?_⟩
    · rw [he]
      have hb := le_roundTo 4 5000 rnd (by
        have h10 : (10 : ℚ) ^ (4 : ℕ) = 10000 := by norm_num
        rw [h10]
        push_cast
        linarith)
      have h5 : ((5000 : ℤ) : ℚ) / 10 ^ (4 : ℕ) = 1/2 := by norm_num
      rw [h5] at hb
      exact hb
    · rw [he]
      have hb := roundTo_le 4 20000 rnd (by
        have h10 : (10 : ℚ) ^ (4 : ℕ) = 10000 := by norm_num
        rw [h10]
        push_cast
        linarith)
      have h20 : ((20000 : ℤ) : ℚ) / 10 ^ (4 : ℕ) = 2 := by norm_num
      rw [h20] at hb
      exact hb

/-- C6 witness: the tabled USD to EUR rate at a concrete random outcome. -/
theorem currency_rate_spec_witness :
    get_currency_rate "USD" "EUR" 1 = 0.85 :=
  (currency_rate_spec "USD" "EUR" 1 (by norm_num) (by norm_num)).2.1

/-! ## C7: weather lookup -/

theorem get_weather_async_tabled (city : String) (tRnd : ℚ) (cond : String)
    (hRnd : ℤ) (w : WeatherInfo)
    (h : dictGet WEATHER_DATA (pyLower city) = some w) :
    get_weather_async city tRnd cond hRnd = w := by
  unfold get_weather_async
  rw [h]

/-- C7: for every city whose lowercased form is in the static table the
weather lookup deterministically returns the tabled values regardless of the
random outcomes; for every other city it still succeeds, returning the
sampled temperature rounded to 1 decimal (hence in [-10,35] whenever the
sample is) and the sampled integer humidity (hence in [30,90] whenever the
sample is). -/
theorem weather_spec (city : String) (tRnd : ℚ) (cond : String) (hRnd : ℤ) :
    (∀ w, dictGet WEATHER_DATA (pyLower city) = some w →
      get_weather_async city tRnd cond hRnd = w) ∧
    get_weather_async "Moscow" tRnd cond hRnd = ⟨15.5, "Cloudy", 65⟩ ∧
    get_weather_async "LONDON" tRnd cond hRnd = ⟨12.0, "Rainy", 80⟩ ∧
    get_weather_async "tokyo" tRnd cond hRnd = ⟨22.0, "Sunny", 55⟩ ∧
    get_weather_async "NewYork" tRnd cond hRnd = ⟨18.0, "Partly Cloudy", 70⟩ ∧
    (dictGet WEATHER_DATA (pyLower city) = none →
      get_weather_async city tRnd cond hRnd = ⟨roundTo 1 tRnd, cond, hRnd⟩ ∧
      (-10 ≤ tRnd → tRnd ≤ 35 →
        -10 ≤ (get_weather_async city tRnd cond hRnd).temperature ∧
        (get_weather_async city tRnd cond hRnd).temperature ≤ 35) ∧
      (30 ≤ hRnd → hRnd ≤ 90 →
        30 ≤ (get_weather_async city tRnd cond hRnd).humidity ∧
        (get_weather_async city tRnd cond hRnd).humidity ≤ 90)) := by
  refine ⟨fun w h => get_weather_async_tabled city tRnd cond hRnd w h,
    get_weather_async_tabled _ tRnd cond hRnd _ rfl,
    get_weather_async_tabled _ tRnd cond hRnd _ rfl,
    get_weather_async_tabled _ tRnd cond hRnd _ rfl,
    get_weather_async_tabled _ tRnd cond hRnd _ rfl, ?_⟩
  intro h
  have he : get_weather_async city tRnd cond hRnd = ⟨roundTo 1 tRnd, cond, hRnd⟩ := by
    unfold get_weather_async
    rw [h]
  refine ⟨he, ?_, ?_⟩
  · intro hlo hhi
    rw [he]
    constructor
    · have hb := le_roundTo 1 (-100) tRnd (by
        have h10 : (10 : ℚ) ^ (1 : ℕ) = 10 := by norm_num
        rw [h10]
        push_cast
        linarith)
      have hq : ((-100 : ℤ) : ℚ) / 10 ^ (1 : ℕ) = -10 := by norm_num
      rw [hq] at hb
      exact hb
    · have hb := roundTo_le 1 350 tRnd (by
        have h10 : (10 : ℚ) ^ (1 : ℕ) = 10 := by norm_num
        rw [h10]
        push_cast
        linarith)
      have hq : ((350 : ℤ) : ℚ) / 10 ^ (1 : ℕ) = 35 := by norm_num
      rw [hq] at hb
      exact hb
  · intro hlo hhi
    rw [he]
    exact ⟨hlo, hhi⟩

/-- C7 witness: the tabled Moscow lookup at concrete random outcomes. -/
theorem weather_spec_witness :
    get_weather_async "Moscow" 0 "Sunny" 50 = ⟨15.5, "Cloudy", 65⟩ :=
  (weather_spec "Moscow" 0 "Sunny" 50).2.1

/-! ## C8: stats counters -/

theorem counterOf_update_self (stats : List (String × ℤ)) (e : String) :
    counterOf (update_request_stats stats e) e = counterOf stats e + 1 := by
  unfold counterOf update_request_stats
  rw [dictGet_dictSet_self]
  rfl

theorem counterOf_update_ne (stats : List (String × ℤ)) (e e' : String)
    (h : e' ≠ e) :
    counterOf (update_request_stats stats e) e' = counterOf stats e' := by
  unfold counterOf update_request_stats
  rw [dictGet_dictSet_ne _ _ _ _ h]

theorem counterOf_replicate (e : String) :
    ∀ (N : ℕ) (stats : List (String × ℤ)),
      counterOf ((List.replicate N e).foldl update_request_stats stats) e =
        counterOf stats e + N := by
  intro N
  induction N with
  | zero => intro stats; simp
  | succ n ih =>
    intro stats
    rw [List.replicate_succ, List.foldl_cons, ih, counterOf_update_self]
    push_cast
    ring

def statsNonneg (stats : List (String × ℤ)) : Prop := ∀ p ∈ stats, 0 ≤ p.2

theorem counterOf_nonneg_of (stats : List (String × ℤ)) (e : String)
    (h : statsNonneg stats) : 0 ≤ counterOf stats e := by
  unfold counterOf
  cases hg : dictGet stats e with
  | none => simp
  | some x =>
    simp only [Option.getD_some]
    exact h (e, x) (dictGet_mem _ _ _ hg)

theorem statsNonneg_update (stats : List (String × ℤ)) (e : String)
    (h : statsNonneg stats) : statsNonneg (update_request_stats stats e) := by
  intro p hp
  unfold update_request_stats at hp
  rcases mem_dictSet _ _ _ _ hp with hmem | heq
  · exact h p hmem
  · rw [heq]
    have hc := counterOf_nonneg_of stats e h
    unfold counterOf at hc
    linarith

theorem statsNonneg_foldl (es : List String) :
    ∀ stats, statsNonneg stats →
      statsNonneg (es.foldl update_request_stats stats) := by
  induction es with
  | nil => intro stats h; exact h
  | cons e rest ih =>
    intro stats h
    exact ih _ (statsNonneg_update stats e h)

theorem get_cache_fst {α : Type} (st : SystemState α) (k : String) (t : ℕ) :
    (get_cache st k t).1 =
      ⟨update_request_stats st.stats "get_cache", st.cache⟩ := by
  unfold get_cache get_cache_value
  cases dictGet st.cache k <;> rfl

theorem applyOp_stats {α : Type} (st : SystemState α) (op : Op α) :
    (applyOp st op).stats = update_request_stats st.stats (endpointName op) := by
  cases op with
  | setC k v t => rfl
  | getC k t =>
    show (get_cache st k t).1.stats = _
    rw [get_cache_fst]
    rfl
  | stat e => rfl

theorem applyOp_cache_setC {α : Type} (st : SystemState α) (k : String)
    (v : α) (t : ℕ) :
    (applyOp st (Op.setC k v t)).cache = dictSet st.cache k ⟨v, t, true⟩ := rfl

theorem applyOp_cache_getC {α : Type} (st : SystemState α) (k : String)
    (t : ℕ) : (applyOp st (Op.getC k t)).cache = st.cache := by
  show (get_cache st k t).1.cache = _
  rw [get_cache_fst]

/-- C8: every handled request increments the stats counter for its endpoint
name by exactly one (the stats component of every modelled handler is the
counter update applied to the incoming stats, for success and failure
alike); counters of other endpoints are untouched; after N handled requests
to an endpoint starting from the empty stats its counter equals N; and every
counter reachable from the empty stats is non-negative. -/
theorem stats_counter_spec (stats : List (String × ℤ)) (e e' : String) :
    counterOf (update_request_stats stats e) e = counterOf stats e + 1 ∧
    (e' ≠ e → counterOf (update_request_stats stats e) e' = counterOf stats e') ∧
    (∀ N : ℕ,
      counterOf ((List.replicate N e).foldl update_request_stats []) e = N) ∧
    (∀ es : List String,
      0 ≤ counterOf (es.foldl update_request_stats []) e) ∧
    (∀ (st : SystemState ℕ) (op : Op ℕ),
      (applyOp st op).stats = update_request_stats st.stats (endpointName op)) ∧
    (∀ (apiKey : String) (st : SystemState ℕ) (v fresh : String),
      (get_protected_resource apiKey st (some v) fresh).1.stats =
        update_request_stats st.stats "protected") := by
  refine ⟨counterOf_update_self stats e,
    fun h => counterOf_update_ne stats e e' h, ?_, ?_, ?_, ?_⟩
  · intro N
    rw [counterOf_replicate e N []]
    simp [counterOf, dictGet]
  · intro es
    exact counterOf_nonneg_of _ e
      (statsNonneg_foldl es [] (fun p hp => absurd hp (List.not_mem_nil p)))
  · intro st op
    exact applyOp_stats st op
  · intro apiKey st v fresh
    by_cases hv : v ≠ apiKey
    · simp [get_protected_resource, hv]
    · simp [get_protected_resource, hv]

/-- C8 witness: updating one endpoint leaves another endpoint's counter
unchanged at a concrete state. -/
theorem stats_counter_spec_witness :
    counterOf (update_request_stats [] "weather") "joke" = counterOf [] "joke" :=
  (stats_counter_spec [] "weather" "joke").2.1 (by decide)

/-! ## C9: cache size equals the number of distinct keys ever set -/

theorem mem_keysOf_dictSet {κ β : Type} [DecidableEq κ]
    (d : List (κ × β)) (k : κ) (v : β) (a : κ) :
    a ∈ keysOf (dictSet d k v) ↔ a ∈ keysOf d ∨ a = k := by
  rw [keysOf_dictSet]
  by_cases h : (dictGet d k).isSome
  · rw [if_pos h]
    constructor
    · exact Or.inl
    · intro hc
      rcases hc with hc | hc
      · exact hc
      · rw [hc]
        exact (mem_keysOf_iff_isSome d k).mpr h
  · rw [if_neg h]
    simp [List.mem_append]

theorem nodup_keysOf_dictSet {κ β : Type} [DecidableEq κ]
    (d : List (κ × β)) (k : κ) (v : β) (h : (keysOf d).Nodup) :
    (keysOf (dictSet d k v)).Nodup := by
  rw [keysOf_dictSet]
  by_cases hs : (dictGet d k).isSome
  · rw [if_pos hs]
    exact h
  · rw [if_neg hs]
    have hk : k ∉ keysOf d := fun hm => hs ((mem_keysOf_iff_isSome d k).mp hm)
    rw [List.nodup_append]
    exact ⟨h, List.nodup_singleton k, by
      intro a ha hb
      simp only [List.mem_singleton] at hb
      rw [hb] at ha
      exact hk ha⟩

theorem mem_keysOf_run_cache (α : Type) :
    ∀ (ops : List (Op α)) (st : SystemState α) (a : String),
      a ∈ keysOf (run st ops).cache ↔
        a ∈ keysOf st.cache ∨ a ∈ setKeys ops := by
  intro ops
  induction ops with
  | nil =>
    intro st a
    simp [run, setKeys]
  | cons op rest ih =>
    intro st a
    have hstep : run st (op :: rest) = run (applyOp st op) rest := rfl
    rw [hstep, ih (applyOp st op) a]
    cases op with
    | setC k v t =>
      rw [applyOp_cache_setC, mem_keysOf_dictSet]
      show (a ∈ keysOf st.cache ∨ a = k) ∨ a ∈ setKeys rest ↔
        a ∈ keysOf st.cache ∨ a ∈ k :: setKeys rest
      simp only [List.mem_cons]
      tauto
    | getC k t =>
      rw [applyOp_cache_getC]
      show a ∈ keysOf st.cache ∨ a ∈ setKeys rest ↔
        a ∈ keysOf st.cache ∨ a ∈ setKeys rest
      exact Iff.rfl
    | stat e => exact Iff.rfl

theorem nodup_keysOf_run_cache (α : Type) :
    ∀ (ops : List (Op α)) (st : SystemState α),
      (keysOf st.cache).Nodup → (keysOf (run st ops).cache).Nodup := by
  intro ops
  induction ops with
  | nil => intro st h; exact h
  | cons op rest ih =>
    intro st h
    have hstep : run st (op :: rest) = run (applyOp st op) rest := rfl
    rw [hstep]
    apply ih
    cases op with
    | setC k v t =>
      rw [applyOp_cache_setC]
      exact nodup_keysOf_dictSet st.cache k _ h
    | getC k t =>
      rw [applyOp_cache_getC]
      exact h
    | stat e => exact h

/-- C9: after any sequence of operations from the initial state, the
cache_size reported by the statistics operation equals the number of
distinct keys ever passed to cache set; overwriting an existing key does
not grow the cache, and no operation ever shrinks it. -/
theorem cache_size_spec (α : Type) (ops : List (Op α)) :
    (get_statistics (run (initialState α) ops)).cache_size =
      (setKeys ops).dedup.length ∧
    (∀ (d : List (String × CacheEntry α)) (k : String) (e : CacheEntry α),
      (dictGet d k).isSome → (dictSet d k e).length = d.length) ∧
    (∀ (st : SystemState α) (op : Op α),
      st.cache.length ≤ (applyOp st op).cache.length) := by
  refine ⟨?_, ?_, ?_⟩
  · have hnodup : (keysOf (run (initialState α) ops).cache).Nodup :=
      nodup_keysOf_run_cache α ops (initialState α) (by
        simp [initialState, keysOf])
    have h1 : (keysOf (run (initialState α) ops).cache).toFinset =
        (setKeys ops).dedup.toFinset := by
      ext a
      simp only [List.mem_toFinset, List.mem_dedup]
      rw [mem_keysOf_run_cache α ops (initialState α) a]
      simp [initialState, keysOf]
    have h2 := List.toFinset_card_of_nodup hnodup
    have h3 := List.toFinset_card_of_nodup (List.nodup_dedup (setKeys ops))
    have h4 : (run (initialState α) ops).cache.length =
        (keysOf (run (initialState α) ops).cache).length :=
      (List.length_map _ _).symm
    show (run (initialState α) ops).cache.length = (setKeys ops).dedup.length
    rw [h4, ← h2, h1, h3]
  · intro d k e hs
    rw [length_dictSet, if_pos hs]
  · intro st op
    cases op with
    | setC k v t =>
      rw [applyOp_cache_setC, length_dictSet]
      split
      · exact le_refl _
      · exact Nat.le_succ _
    | getC k t =>
      rw [applyOp_cache_getC]
    | stat e => exact le_refl _

/-- C9 witness: overwriting an existing key keeps the cache length at a
concrete cache. -/
theorem cache_size_spec_witness :
    (dictSet [("k", (⟨0, 0, true⟩ : CacheEntry ℕ))] "k"
      (⟨1, 1, true⟩ : CacheEntry ℕ)).length = 1 :=
  (cache_size_spec ℕ []).2.1 [("k", ⟨0, 0, true⟩)] "k" ⟨1, 1, true⟩ (by decide)
